import Mathlib

/-!
Verification development for queryLogEmulator.c (SynthaCorpus).

The program maps each word of a base query log to the word at the same
frequency rank in an emulated vocabulary.  We embed the core of
src/queryLogEmulator.c shallowly: byte strings become lists of naturals
(byte values), the C library bsearch becomes a fuel-indexed structural
recursion (fuel is always at least the interval width, so the sentinel
branch is never reached on the calls the program makes), doubles drawn
uniformly from the interval are modelled as rationals, and the output
file becomes the list of emitted byte lines.
-/

/-- Byte at a C string pointer: the head of the remaining byte list, with the
end of the list standing for the NUL terminator (byte 0). -/
def headByte : List Nat → Nat
  | [] => 0
  | b :: _ => b

/-- The word portion of a byte string: its maximal prefix of bytes strictly
greater than the space character, as scanned by the emission loop
the emission loop of main
(write each byte while it is above the space character). -/
def wordOf (s : List Nat) : List Nat :=
  s.takeWhile (fun b => decide (32 < b))

/-- Embedding of vocabCmp (src/queryLogEmulator.c:85-109): compare two byte
strings terminated by any byte less than or equal to the space character,
returning 0 on simultaneous termination, -1/1 when exactly one side has
terminated, and the unsigned comparison of the first differing byte
otherwise. -/
def vocabCmp : List Nat → List Nat → Int
  | a :: as, b :: bs =>
    if 32 < a then
      if 32 < b then
        if a = b then vocabCmp as bs
        else if a < b then -1 else 1
      else 1
    else if 32 < b then -1 else 0
  | a :: _, [] => if 32 < a then 1 else 0
  | [], b :: _ => if 32 < b then -1 else 0
  | [], [] => 0

/-- C isspace, on the bytes strtod can see ahead of a number. -/
def isWs (b : Nat) : Bool := b == 32 || (9 ≤ b && b ≤ 13)

/-- C isdigit. -/
def isDigit (b : Nat) : Bool := 48 ≤ b && b ≤ 57

/-- Digit-consuming loop of strtod: accumulate the decimal value of the
leading digit bytes and return it with the unconsumed remainder. -/
def digitsVal : Nat → List Nat → Nat × List Nat
  | acc, [] => (acc, [])
  | acc, b :: bs => if isDigit b then digitsVal (10 * acc + (b - 48)) bs else (acc, b :: bs)

/-- Embedding of the libc strtod call in getRankInBase, restricted to the
forms a vocab.tsv field can start with: leading whitespace is skipped, then
an unsigned run of decimal digits is converted; if no digits follow, no
conversion is performed, the value is 0 and the end pointer is the original
argument.  (Signs, fractions and exponents never occur in these fields.) -/
def strtodC (p : List Nat) : Nat × List Nat :=
  let s := p.dropWhile isWs
  if isDigit (headByte s) then digitsVal 0 s else (0, p)

/-- Little-endian decimal digit bytes of n (fuel-indexed; fuel at least n
makes the sentinel branch unreachable). -/
def decBytesAux : Nat → Nat → List Nat
  | 0, _ => []
  | fuel + 1, n => if n = 0 then [] else (n % 10 + 48) :: decBytesAux fuel (n / 10)

/-- Decimal digit bytes of n, most significant first, as printf %d writes
them. -/
def decBytes (n : Nat) : List Nat :=
  if n = 0 then [48] else (decBytesAux n n).reverse

/-- Embedding of the field-parsing loop of getRankInBase
(src/queryLogEmulator.c:137-152).  The C loop runs field = 2,3,4; here
fuel + 1 counts the remaining iterations, so field = 4 - fuel and the C
test field != 4 becomes fuel != 0.  Each iteration converts a number starting at
p; a tab advances past the field, a premature terminator yields the error
value 1818, any other non-terminator byte yields 2929, and after the last
field the converted rank is returned. -/
def fieldLoop : Nat → List Nat → Int → Int
  | 0, _, rank => rank
  | fuel + 1, p, _ =>
    let s := strtodC p
    let q := s.2
    if headByte q = 9 then fieldLoop fuel q.tail (s.1 : Int)
    else if headByte q < 32 ∧ fuel ≠ 0 then 1818
    else if headByte q ≠ 0 ∧ headByte q ≠ 13 ∧ headByte q ≠ 10 then 2929
    else fieldLoop fuel p (s.1 : Int)

/-- Embedding of libc bsearch as called by getRankInBase: binary search of
key over arr between lo (inclusive) and hi (exclusive), returning the
element found, if any, together with the number of vocabCmp invocations
performed.  Fuel-indexed structural recursion; every recursive call shrinks
hi - lo, so fuel = hi - lo suffices. -/
def bsearchGo (key : List Nat) (arr : List (List Nat)) : Nat → Nat → Nat → Option (List Nat) × Nat
  | 0, _, _ => (none, 0)
  | fuel + 1, lo, hi =>
    if lo < hi then
      let mid := (lo + hi) / 2
      let c := vocabCmp key (arr.getD mid [])
      if c = 0 then (some (arr.getD mid []), 1)
      else if c < 0 then
        let s := bsearchGo key arr fuel lo mid
        (s.1, s.2 + 1)
      else
        let s := bsearchGo key arr fuel (mid + 1) hi
        (s.1, s.2 + 1)
    else (none, 0)

/-- The bsearch call of getRankInBase: search the whole line array. -/
def cBsearch (key : List Nat) (arr : List (List Nat)) : Option (List Nat) × Nat :=
  bsearchGo key arr arr.length 0 arr.length

/-- Number of word comparisons one lookup performs. -/
def lookupComparisons (base : List (List Nat)) (w : List Nat) : Nat :=
  (cBsearch w base).2

/-- Embedding of getRankInBase (src/queryLogEmulator.c:112-155): binary
search the base vocabulary lines for the query word; on a miss return -1;
on a hit skip the word and the following tab and run the field-parsing
loop. -/
def getRankInBase (base : List (List Nat)) (w : List Nat) : Int :=
  match (cBsearch w base).1 with
  | none => -1
  | some line => fieldLoop 3 ((line.dropWhile (fun b => decide (32 < b))).tail) 0

/-- The two configuration flags the substitution policy reads. -/
structure Params where
  obfuscate : Bool
  preserveNoExists : Bool
deriving DecidableEq, Repr

/-- The two in-memory vocabularies (arrays of line byte strings). -/
structure Globals where
  baseVocabLines : List (List Nat)
  emuVocabLines : List (List Nat)

/-- Run-wide mutable state of main: the noexist counter and the position in
the stream of uniform random draws. -/
structure RunState where
  noexistNum : Nat
  rix : Nat
deriving DecidableEq, Repr

/-- Embedding of the rank-jitter step of main (src/queryLogEmulator.c:262-266):
when obfuscation is on and the 0-origin rank is non-negative, one uniform
draw is taken; a draw above 0.6666667 increments the rank, a draw below
0.3333333 decrements a positive rank, anything else leaves it unchanged. -/
def jitterRank (ob : Bool) (rank0 : Int) (rng : Nat → ℚ) (rix : Nat) : Int × Nat :=
  if ob ∧ 0 ≤ rank0 then
    let r := rng rix
    if (0.6666667 : ℚ) < r then (rank0 + 1, rix + 1)
    else if 0 < rank0 ∧ r < (0.3333333 : ℚ) then (rank0 - 1, rix + 1)
    else (rank0, rix + 1)
  else (rank0, rix)

/-- Embedding of (int)floor(rand_val(0) * (double)emuVocabLineCount): the
random index both random-substitution branches of main compute. -/
def randIndex (r : ℚ) (n : Nat) : Int := Int.floor (r * (n : ℚ))

/-- The fixed bytes of the placeholder stem "noexist". -/
def noexistStem : List Nat := [110, 111, 101, 120, 105, 115, 116]

/-- The placeholder token sprintf builds in the noexist buffer: the stem
followed by the decimal digits of the counter. -/
def noexistToken (n : Nat) : List Nat := noexistStem ++ decBytes n

/-- Word stored at a 0-origin index of the emulated vocabulary list: the
word portion of the line at that index (the emission loop stops at the
first byte not above space). -/
def wordAt (G : Globals) (i : Nat) : List Nat :=
  wordOf (G.emuVocabLines.getD i [])

/-- The 0-origin rank main works with after lookup and jitter for one query
word. -/
def wordRank1 (P : Params) (G : Globals) (rng : Nat → ℚ) (w : List Nat) (st : RunState) : Int :=
  (jitterRank P.obfuscate (getRankInBase G.baseVocabLines w - 1) rng st.rix).1

/-- Embedding of the per-word body of the main query loop
(src/queryLogEmulator.c:257-295): look up the rank of the word, apply optional
jitter, then emit either a placeholder, a randomly chosen emulated word, or
the emulated word at the looked-up rank; returns the emitted bytes and the
updated run state. -/
def emitWord (P : Params) (G : Globals) (rng : Nat → ℚ) (w : List Nat) (st : RunState) :
    List Nat × RunState :=
  let j := jitterRank P.obfuscate (getRankInBase G.baseVocabLines w - 1) rng st.rix
  let rank1 := j.1
  let st1 : RunState := ⟨st.noexistNum, j.2⟩
  if rank1 < 0 then
    if P.preserveNoExists then
      (noexistToken st1.noexistNum, ⟨st1.noexistNum + 1, st1.rix⟩)
    else
      let idx := (randIndex (rng st1.rix) G.emuVocabLines.length).toNat
      (wordOf (G.emuVocabLines.getD idx []), ⟨st1.noexistNum, st1.rix + 1⟩)
  else
    let pr : Int × RunState :=
      if (G.emuVocabLines.length : Int) ≤ rank1 then
        (randIndex (rng st1.rix) G.emuVocabLines.length, ⟨st1.noexistNum, st1.rix + 1⟩)
      else (rank1, st1)
    (wordOf (G.emuVocabLines.getD pr.1.toNat []), pr.2)

/-- Process the words of one query line in order, collecting the emitted
words and threading the run state. -/
def emitWords (P : Params) (G : Globals) (rng : Nat → ℚ) :
    List (List Nat) → RunState → List (List Nat) × RunState
  | [], st => ([], st)
  | w :: ws, st =>
    let o := emitWord P G rng w st
    let rest := emitWords P G rng ws o.2
    (o.1 :: rest.1, rest.2)

/-- Byte assembly of the main output loop: a space is written before every
word except the first (the q > 0 test), then the bytes of the word. -/
def assembleWords : Bool → List (List Nat) → List Nat
  | _, [] => []
  | first, o :: os => (if first then [] else [32]) ++ o ++ assembleWords false os

/-- One full output line for the words of one input query: the assembled words
followed by the single newline main writes after the word loop. -/
def transformLine (P : Params) (G : Globals) (rng : Nat → ℚ)
    (ws : List (List Nat)) (st : RunState) : List Nat × RunState :=
  let r := emitWords P G rng ws st
  (assembleWords true r.1 ++ [10], r.2)

/-- A whole run: transform the token lists of the input query lines in
order, producing the output lines. -/
def runQueries (P : Params) (G : Globals) (rng : Nat → ℚ) :
    List (List (List Nat)) → RunState → List (List Nat) × RunState
  | [], st => ([], st)
  | q :: qs, st =>
    let l := transformLine P G rng q st
    let rest := runQueries P G rng qs l.2
    (l.1 :: rest.1, rest.2)

/-- The outputs of the words of one line that came from the placeholder
branch of main (preserveNoExists set and post-jitter rank negative), in
emission order. -/
def placeholdersEmitted (P : Params) (G : Globals) (rng : Nat → ℚ) :
    List (List Nat) → RunState → List (List Nat)
  | [], _ => []
  | w :: ws, st =>
    let o := emitWord P G rng w st
    let rest := placeholdersEmitted P G rng ws o.2
    if P.preserveNoExists ∧ wordRank1 P G rng w st < 0 then o.1 :: rest else rest

/-- All placeholder outputs of a run, across its query lines, in emission
order. -/
def placeholdersInRun (P : Params) (G : Globals) (rng : Nat → ℚ) :
    List (List (List Nat)) → RunState → List (List Nat)
  | [], _ => []
  | q :: qs, st =>
    placeholdersEmitted P G rng q st ++
      placeholdersInRun P G rng qs (transformLine P G rng q st).2

/-- Number of query-word occurrences of a run that are absent from the base
vocabulary (lookup returns -1). -/
def oovCount (G : Globals) (qs : List (List (List Nat))) : Nat :=
  (qs.map (fun q => q.countP (fun w => decide (getRankInBase G.baseVocabLines w = -1)))).sum

/-- Embedding of the trailing-terminator stripping loop of main
(src/queryLogEmulator.c:240-241): starting from the line length, decrement
while the byte before the current end is strictly below space.  The byte
before index 0 cannot be read, so reaching length 0 is modelled as the
out-of-bounds outcome none; some m is the final stripped length. -/
def stripLoop (buf : List Nat) : Nat → Option Nat
  | 0 => none
  | n + 1 => if buf.getD n 0 < 32 then stripLoop buf n else some (n + 1)

/-- Variant of the stripping loop that decrements while the byte before the
current end is less than OR EQUAL to space, i.e. one that also strips
trailing spaces.  Kept only to compare against stripLoop, which stops at a
space. -/
def stripLoopSpec (buf : List Nat) : Nat → Option Nat
  | 0 => none
  | n + 1 => if buf.getD n 0 ≤ 32 then stripLoopSpec buf n else some (n + 1)

/-! ### Lemmas about the word projection and vocabCmp -/

lemma wordOf_nil : wordOf [] = [] := rfl

lemma wordOf_cons (b : Nat) (s : List Nat) :
    wordOf (b :: s) = if 32 < b then b :: wordOf s else [] := by
  by_cases h : 32 < b <;> simp [wordOf, List.takeWhile_cons, h]

lemma wordOf_mem {s : List Nat} {c : Nat} (h : c ∈ wordOf s) : 32 < c := by
  induction s with
  | nil => simp [wordOf] at h
  | cons b t ih =>
    rw [wordOf_cons] at h
    by_cases hb : 32 < b
    · simp [hb] at h
      rcases h with h | h
      · omega
      · exact ih h
    · simp [hb] at h

lemma vocabCmp_proj (a b : List Nat) : vocabCmp a b = vocabCmp (wordOf a) (wordOf b) := by
  induction a generalizing b with
  | nil =>
    cases b with
    | nil => rfl
    | cons y ys => by_cases hy : 32 < y <;> simp [vocabCmp, wordOf_cons, hy]
  | cons x xs ih =>
    cases b with
    | nil => by_cases hx : 32 < x <;> simp [vocabCmp, wordOf_cons, hx]
    | cons y ys =>
      by_cases hx : 32 < x
      · by_cases hy : 32 < y
        · by_cases hxy : x = y
          · subst hxy; simp [vocabCmp, wordOf_cons, hx, hy, ih]
          · simp [vocabCmp, wordOf_cons, hx, hy, hxy]
        · simp [vocabCmp, wordOf_cons, hx, hy]
      · by_cases hy : 32 < y <;> simp [vocabCmp, wordOf_cons, hx, hy]

lemma vocabCmp_zero_iff (a b : List Nat) : vocabCmp a b = 0 ↔ wordOf a = wordOf b := by
  induction a generalizing b with
  | nil =>
    cases b with
    | nil => simp [vocabCmp]
    | cons y ys =>
      by_cases hy : 32 < y <;> simp [vocabCmp, wordOf_cons, wordOf_nil, hy]
  | cons x xs ih =>
    cases b with
    | nil =>
      by_cases hx : 32 < x <;> simp [vocabCmp, wordOf_cons, wordOf_nil, hx]
    | cons y ys =>
      by_cases hx : 32 < x
      · by_cases hy : 32 < y
        · by_cases hxy : x = y
          · subst hxy; simp [vocabCmp, wordOf_cons, hx, hy, ih]
          · by_cases hlt : x < y <;>
              simp [vocabCmp, wordOf_cons, hx, hy, hxy, hlt]
        · simp [vocabCmp, wordOf_cons, hx, hy]
      · by_cases hy : 32 < y <;> simp [vocabCmp, wordOf_cons, hx, hy]

lemma vocabCmp_swap (a b : List Nat) : vocabCmp b a = - vocabCmp a b := by
  induction a generalizing b with
  | nil =>
    cases b with
    | nil => rfl
    | cons y ys => by_cases hy : 32 < y <;> simp [vocabCmp, hy]
  | cons x xs ih =>
    cases b with
    | nil => by_cases hx : 32 < x <;> simp [vocabCmp, hx]
    | cons y ys =>
      by_cases hx : 32 < x
      · by_cases hy : 32 < y
        · by_cases hxy : x = y
          · subst hxy; simp [vocabCmp, hx, hy, ih]
          · have hyx : y ≠ x := fun h => hxy h.symm
            by_cases hlt : x < y
            · have hltx : ¬ y < x := by omega
              simp [vocabCmp, hx, hy, hxy, hyx, hlt, hltx]
            · have hltx : y < x := by omega
              simp [vocabCmp, hx, hy, hxy, hyx, hlt, hltx]
        · simp [vocabCmp, hx, hy]
      · by_cases hy : 32 < y <;> simp [vocabCmp, hx, hy]

lemma vocabCmp_word_extension (u t : List Nat) (hu : ∀ c ∈ u, 32 < c)
    (ht : t ≠ []) (h32 : ∀ c ∈ t, 32 < c) : vocabCmp u (u ++ t) = -1 := by
  induction u with
  | nil =>
    cases t with
    | nil => exact absurd rfl ht
    | cons c cs =>
      have : 32 < c := h32 c (by simp)
      simp [vocabCmp, this]
  | cons x xs ih =>
    have hx : 32 < x := hu x (by simp)
    have hxs : ∀ c ∈ xs, 32 < c := fun c hc => hu c (by simp [hc])
    simp [vocabCmp, hx, ih hxs]

lemma vocabCmp_word_first_diff (u v : List Nat) (k : Nat)
    (hu : ∀ c ∈ u, 32 < c) (hv : ∀ c ∈ v, 32 < c)
    (hk : u.take k = v.take k) (hku : k < u.length) (hkv : k < v.length)
    (hne : u.getD k 0 ≠ v.getD k 0) :
    vocabCmp u v = if u.getD k 0 < v.getD k 0 then -1 else 1 := by
  induction k generalizing u v with
  | zero =>
    cases u with
    | nil => simp at hku
    | cons x xs =>
      cases v with
      | nil => simp at hkv
      | cons y ys =>
        have hx : 32 < x := hu x (by simp)
        have hy : 32 < y := hv y (by simp)
        have hxy : x ≠ y := by simpa using hne
        simp [vocabCmp, hx, hy, hxy]
  | succ k ih =>
    cases u with
    | nil => simp at hku
    | cons x xs =>
      cases v with
      | nil => simp at hkv
      | cons y ys =>
        have hx : 32 < x := hu x (by simp)
        have hxy : x = y := by
          have := congrArg (fun l => l.headI) hk
          simpa [List.take_succ_cons] using this
        subst hxy
        have htk : xs.take k = ys.take k := by
          simpa [List.take_succ_cons] using hk
        have h1 : ∀ c ∈ xs, 32 < c := fun c hc => hu c (by simp [hc])
        have h2 : ∀ c ∈ ys, 32 < c := fun c hc => hv c (by simp [hc])
        have := ih xs ys h1 h2 htk (by simpa using hku) (by simpa using hkv)
          (by simpa using hne)
        simpa [vocabCmp, hx] using this

/-- Claim C4: vocabCmp compares two byte strings only up to the first byte
at or below space in each: it returns 0 exactly when the two word portions
coincide; when one word portion is a proper extension of the other, the
shorter side compares strictly smaller; otherwise the first differing byte
of the word portions decides by unsigned comparison — in particular a word
is never equal to a proper extension of itself. -/
theorem claim_C4 :
    (∀ a b : List Nat, vocabCmp a b = 0 ↔ wordOf a = wordOf b) ∧
    (∀ a b t : List Nat, wordOf b = wordOf a ++ t → t ≠ [] →
      vocabCmp a b = -1 ∧ vocabCmp b a = 1) ∧
    (∀ a b : List Nat, ∀ k : Nat,
      (wordOf a).take k = (wordOf b).take k → k < (wordOf a).length →
      k < (wordOf b).length → (wordOf a).getD k 0 ≠ (wordOf b).getD k 0 →
      vocabCmp a b = if (wordOf a).getD k 0 < (wordOf b).getD k 0 then -1 else 1) := by
  refine ⟨vocabCmp_zero_iff, ?_, ?_⟩
  · intro a b t hext ht
    have hu : ∀ c ∈ wordOf a, 32 < c := fun c hc => wordOf_mem hc
    have h32 : ∀ c ∈ t, 32 < c := by
      intro c hc
      have : c ∈ wordOf b := by rw [hext]; exact List.mem_append_right _ hc
      exact wordOf_mem this
    have h1 : vocabCmp a b = -1 := by
      rw [vocabCmp_proj, hext]
      exact vocabCmp_word_extension _ _ hu ht h32
    refine ⟨h1, ?_⟩
    have := vocabCmp_swap a b
    rw [h1] at this
    simpa using this
  · intro a b k hk hku hkv hne
    rw [vocabCmp_proj]
    exact vocabCmp_word_first_diff _ _ k (fun c hc => wordOf_mem hc)
      (fun c hc => wordOf_mem hc) hk hku hkv hne

/-- Witness for claim C4: the word "ab" compares strictly below its proper
extension "abc" and never equal to it, and "ac" versus "ab" is decided by
the differing byte. -/
theorem claim_C4_witness :
    vocabCmp [97, 98] [97, 98, 99] = -1 ∧ vocabCmp [97, 98, 99] [97, 98] = 1 ∧
    vocabCmp [97, 99] [97, 98] = 1 := by
  have h2 := claim_C4.2.1 [97, 98] [97, 98, 99] [99] (by decide) (by decide)
  have h3 := claim_C4.2.2 [97, 99] [97, 98] 1 (by decide) (by decide) (by decide)
    (by decide)
  exact ⟨h2.1, h2.2, h3.trans (by decide)⟩

/-! ### Lemmas about digit parsing and printing -/

lemma isDigit_iff (b : Nat) : isDigit b = true ↔ 48 ≤ b ∧ b ≤ 57 := by
  simp [isDigit]

lemma isWs_of_isDigit {b : Nat} (h : isDigit b = true) : isWs b = false := by
  rw [isDigit_iff] at h
  simp [isWs]
  omega

lemma decBytesAux_digits : ∀ fuel n, ∀ d ∈ decBytesAux fuel n, isDigit d = true := by
  intro fuel
  induction fuel with
  | zero => intro n d hd; simp [decBytesAux] at hd
  | succ fuel ih =>
    intro n d hd
    by_cases hn : n = 0
    · simp [decBytesAux, hn] at hd
    · simp [decBytesAux, hn] at hd
      rcases hd with hd | hd
      · rw [isDigit_iff]; omega
      · exact ih _ d hd

lemma decBytes_digits (n : Nat) : ∀ d ∈ decBytes n, isDigit d = true := by
  intro d hd
  by_cases hn : n = 0
  · simp [decBytes, hn] at hd; subst hd; decide
  · simp [decBytes, hn] at hd
    exact decBytesAux_digits n n d hd

lemma decBytes_ne_nil (n : Nat) : decBytes n ≠ [] := by
  by_cases hn : n = 0
  · simp [decBytes, hn]
  · cases n with
    | zero => exact absurd rfl hn
    | succ m => simp [decBytes, hn, decBytesAux]

lemma digitsVal_append (ds : List Nat) (hds : ∀ d ∈ ds, isDigit d = true) :
    ∀ a rest, digitsVal a (ds ++ rest) =
      digitsVal (ds.foldl (fun v d => 10 * v + (d - 48)) a) rest := by
  induction ds with
  | nil => intro a rest; simp
  | cons d ds ih =>
    intro a rest
    have hd : isDigit d = true := hds d (by simp)
    simp only [List.cons_append, digitsVal, hd, if_true, List.foldl_cons]
    exact ih (fun x hx => hds x (by simp [hx])) _ rest

lemma digitsVal_stop (a : Nat) (rest : List Nat) (h : isDigit (headByte rest) = false) :
    digitsVal a rest = (a, rest) := by
  cases rest with
  | nil => rfl
  | cons b bs =>
    simp only [headByte] at h
    simp [digitsVal, h]

lemma foldl_decBytesAux : ∀ fuel n a, n ≤ fuel →
    ((decBytesAux fuel n).reverse).foldl (fun v d => 10 * v + (d - 48)) a =
      a * 10 ^ (decBytesAux fuel n).length + n := by
  intro fuel
  induction fuel with
  | zero =>
    intro n a h
    interval_cases n
    simp [decBytesAux]
  | succ fuel ih =>
    intro n a h
    by_cases hn : n = 0
    · simp [decBytesAux, hn]
    · have h1 : n / 10 ≤ fuel := by
        have h2 := Nat.div_lt_self (Nat.pos_of_ne_zero hn) (by norm_num : (1:Nat) < 10)
        omega
      have hstep : decBytesAux (fuel + 1) n = (n % 10 + 48) :: decBytesAux fuel (n / 10) := by
        simp [decBytesAux, hn]
      rw [hstep, List.reverse_cons, List.foldl_append, ih (n / 10) a h1]
      simp only [List.foldl_cons, List.foldl_nil, List.length_cons]
      have hsub : n % 10 + 48 - 48 = n % 10 := by omega
      rw [hsub, pow_succ, ← mul_assoc]
      generalize a * 10 ^ (decBytesAux fuel (n / 10)).length = c
      omega

lemma strtodC_decBytes (n : Nat) (rest : List Nat)
    (h : isDigit (headByte rest) = false) :
    strtodC (decBytes n ++ rest) = (n, rest) := by
  obtain ⟨d, t, hdt⟩ : ∃ d t, decBytes n = d :: t := by
    cases hcase : decBytes n with
    | nil => exact absurd hcase (decBytes_ne_nil n)
    | cons d t => exact ⟨d, t, rfl⟩
  have hd : isDigit d = true := decBytes_digits n d (by rw [hdt]; simp)
  have hws : isWs d = false := isWs_of_isDigit hd
  have hdrop : (decBytes n ++ rest).dropWhile isWs = decBytes n ++ rest := by
    rw [hdt]
    simp [List.dropWhile_cons, hws]
  have hhead : isDigit (headByte (decBytes n ++ rest)) = true := by
    rw [hdt]
    simpa [headByte] using hd
  rw [strtodC]
  simp only [hdrop, hhead, if_true]
  rw [digitsVal_append (decBytes n) (decBytes_digits n) 0 rest, digitsVal_stop _ _ h]
  by_cases hn : n = 0
  · subst hn; simp [decBytes]
  · have hrw : decBytes n = (decBytesAux n n).reverse := by simp [decBytes, hn]
    rw [hrw, foldl_decBytesAux n n 0 le_rfl]
    simp

lemma decBytes_inj {m n : Nat} (h : decBytes m = decBytes n) : m = n := by
  have hm := strtodC_decBytes m [] (by decide)
  have hn := strtodC_decBytes n [] (by decide)
  rw [List.append_nil] at hm hn
  rw [h, hn] at hm
  exact (Prod.ext_iff.mp hm.symm).1

lemma noexistToken_inj {m n : Nat} (h : noexistToken m = noexistToken n) : m = n := by
  unfold noexistToken at h
  exact decBytes_inj (List.append_cancel_left h)

/-! ### Lemmas about the jitter step -/

lemma jitterRank_not_obf (rank0 : Int) (rng : Nat → ℚ) (rix : Nat) :
    jitterRank false rank0 rng rix = (rank0, rix) := by
  simp [jitterRank]

lemma jitterRank_neg (ob : Bool) {rank0 : Int} (h : rank0 < 0) (rng : Nat → ℚ)
    (rix : Nat) : jitterRank ob rank0 rng rix = (rank0, rix) := by
  unfold jitterRank
  rw [if_neg]
  rintro ⟨-, h2⟩
  omega

lemma jitterRank_bounds (ob : Bool) (rank0 : Int) (rng : Nat → ℚ) (rix : Nat)
    (h : 0 ≤ rank0) :
    0 ≤ (jitterRank ob rank0 rng rix).1 ∧
    rank0 - 1 ≤ (jitterRank ob rank0 rng rix).1 ∧
    (jitterRank ob rank0 rng rix).1 ≤ rank0 + 1 := by
  simp only [jitterRank]
  split_ifs with h1 h2 h3 <;> simp <;> omega

/-- Counterexample to claim C3: the code compares the draw against the
literals 0.6666667 and 0.3333333, not against 2/3 and 1/3.  At rank0 = 5
with draw r = 0.33333332 the conditions the claim gives for a decrement hold
(rank0 > 0, r < 1/3, and no increment since r is not above 2/3), yet the
jitter step leaves the rank at 5. -/
theorem claim_C3_counterexample :
    (0 : Int) < 5 ∧ ((0.33333332 : ℚ) < 1 / 3) ∧ ¬ ((2 : ℚ) / 3 < (0.33333332 : ℚ)) ∧
    jitterRank true 5 (fun _ => (0.33333332 : ℚ)) 0 = (5, 1) := by
  refine ⟨by norm_num, by norm_num, by norm_num, ?_⟩
  simp [jitterRank]
  norm_num

/-- Claim C3 (amended): when obfuscate is enabled and rank0 ≥ 0, exactly one
uniform draw r is taken, rank0 is incremented exactly when r > 0.6666667,
decremented exactly when rank0 > 0 and r < 0.3333333 and no increment
applied, and otherwise left unchanged; the jittered rank is never
negative. -/
theorem claim_C3_amended (rank0 : Int) (rng : Nat → ℚ) (rix : Nat) (h : 0 ≤ rank0) :
    (jitterRank true rank0 rng rix).2 = rix + 1 ∧
    ((jitterRank true rank0 rng rix).1 = rank0 + 1 ↔ (0.6666667 : ℚ) < rng rix) ∧
    ((jitterRank true rank0 rng rix).1 = rank0 - 1 ↔
      ¬ (0.6666667 : ℚ) < rng rix ∧ 0 < rank0 ∧ rng rix < (0.3333333 : ℚ)) ∧
    ((jitterRank true rank0 rng rix).1 = rank0 ↔
      ¬ (0.6666667 : ℚ) < rng rix ∧ ¬ (0 < rank0 ∧ rng rix < (0.3333333 : ℚ))) ∧
    0 ≤ (jitterRank true rank0 rng rix).1 := by
  simp only [jitterRank, true_and, if_pos h]
  by_cases h1 : (0.6666667 : ℚ) < rng rix
  · rw [if_pos h1]
    refine ⟨rfl, by simp [h1], ?_, ?_, by omega⟩
    · simp only [h1, not_true, false_and, iff_false]
      omega
    · simp only [h1, not_true, false_and, iff_false]
      omega
  · rw [if_neg h1]
    by_cases h2 : 0 < rank0 ∧ rng rix < (0.3333333 : ℚ)
    · rw [if_pos h2]
      obtain ⟨h2a, h2b⟩ := h2
      refine ⟨rfl, ?_, by simp [h1, h2a, h2b], ?_, by omega⟩
      · simp only [h1, iff_false]
        omega
      · simp only [h1, not_false_iff, true_and, h2a, h2b, and_self, not_true,
          iff_false]
        omega
    · rw [if_neg h2]
      refine ⟨rfl, ?_, ?_, by simp [h1, h2], by omega⟩
      · simp only [h1, iff_false]
        omega
      · simp only [h1, not_false_iff, true_and, h2, iff_false]
        omega

/-- Witness for amended claim C3 at rank0 = 0 with a constant zero draw. -/
theorem claim_C3_amended_witness :
    (0 : Int) ≤ 0 ∧ (jitterRank true 0 (fun _ => 0) 0).2 = 0 + 1 ∧
    0 ≤ (jitterRank true 0 (fun _ => 0) 0).1 := by
  have h := claim_C3_amended 0 (fun _ => 0) 0 le_rfl
  exact ⟨le_rfl, h.1, h.2.2.2.2⟩

/-- Claim C10: with at least one emulated vocabulary line and a uniform draw
in the unit interval, the random index floor(r * n) computed by both
random-substitution branches lies in the interval from 0 inclusive to n
exclusive, so indexing the emulated line array with it stays in bounds. -/
theorem claim_C10 (r : ℚ) (n : Nat) (h0 : 0 ≤ r) (h1 : r < 1) (hn : 1 ≤ n) :
    0 ≤ randIndex r n ∧ randIndex r n < (n : Int) ∧ (randIndex r n).toNat < n := by
  have hge : 0 ≤ randIndex r n := by
    apply Int.floor_nonneg.mpr
    positivity
  have hlt : randIndex r n < (n : Int) := by
    apply Int.floor_lt.mpr
    push_cast
    have hn0 : (0:ℚ) < (n : ℚ) := by exact_mod_cast hn
    calc r * (n : ℚ) < 1 * (n : ℚ) := by exact mul_lt_mul_of_pos_right h1 hn0
      _ = (n : ℚ) := one_mul _
  exact ⟨hge, hlt, by omega⟩

/-- Witness for claim C10 at draw 0 over a one-line emulated vocabulary. -/
theorem claim_C10_witness :
    (0 : ℚ) ≤ 0 ∧ (0 : ℚ) < 1 ∧ 1 ≤ 1 ∧
    (0 ≤ randIndex 0 1 ∧ randIndex 0 1 < (1 : Int) ∧ (randIndex 0 1).toNat < 1) :=
  ⟨le_rfl, by norm_num, le_rfl, claim_C10 0 1 le_rfl (by norm_num) le_rfl⟩

/-- Claim C2 (the code contradicts it): on the base vocabulary line
"apple\t10\t5" whose rank field is missing, the lookup does print a
diagnostic but then RETURNS the sentinel 1818 instead of aborting, and the
main loop carries on, treating 1818 as a 1-origin rank: the word "apple"
is transformed into a random emulated substitute (here "zeta", consuming
one draw) under both settings of preserveNoExists.  A malformed numeric
field ("apple\tabc\t5\t2") likewise yields the sentinel 2929. -/
theorem claim_C2_eval :
    getRankInBase [[97, 112, 112, 108, 101, 9, 49, 48, 9, 53]] [97, 112, 112, 108, 101] = 1818 ∧
    getRankInBase [[97, 112, 112, 108, 101, 9, 97, 98, 99, 9, 53, 9, 50]] [97, 112, 112, 108, 101] = 2929 ∧
    emitWord ⟨false, false⟩
      ⟨[[97, 112, 112, 108, 101, 9, 49, 48, 9, 53]], [[122, 101, 116, 97], [121, 97, 107]]⟩
      (fun _ => 0) [97, 112, 112, 108, 101] ⟨0, 0⟩ = ([122, 101, 116, 97], ⟨0, 1⟩) ∧
    emitWord ⟨false, true⟩
      ⟨[[97, 112, 112, 108, 101, 9, 49, 48, 9, 53]], [[122, 101, 116, 97], [121, 97, 107]]⟩
      (fun _ => 0) [97, 112, 112, 108, 101] ⟨0, 0⟩ = ([122, 101, 116, 97], ⟨0, 1⟩) := by
  have h1 : getRankInBase [[97, 112, 112, 108, 101, 9, 49, 48, 9, 53]]
      [97, 112, 112, 108, 101] = 1818 := by decide
  have hidx : randIndex ((0 : ℚ)) 2 = 0 := by simp [randIndex]
  refine ⟨h1, by decide, ?_, ?_⟩ <;>
  · simp only [emitWord, h1, jitterRank_not_obf]
    norm_num [hidx]
    decide

/-! ### Lemmas about the binary search -/

lemma bsearchGo_empty (key : List Nat) (arr : List (List Nat)) (fuel lo hi : Nat)
    (h : ¬ lo < hi) : bsearchGo key arr fuel lo hi = (none, 0) := by
  cases fuel with
  | zero => rfl
  | succ fuel => simp [bsearchGo, h]

lemma bsearchGo_succ (key : List Nat) (arr : List (List Nat)) (fuel lo hi : Nat)
    (h : lo < hi) :
    bsearchGo key arr (fuel + 1) lo hi =
      if vocabCmp key (arr.getD ((lo + hi) / 2) []) = 0 then
        (some (arr.getD ((lo + hi) / 2) []), 1)
      else if vocabCmp key (arr.getD ((lo + hi) / 2) []) < 0 then
        ((bsearchGo key arr fuel lo ((lo + hi) / 2)).1,
          (bsearchGo key arr fuel lo ((lo + hi) / 2)).2 + 1)
      else
        ((bsearchGo key arr fuel ((lo + hi) / 2 + 1) hi).1,
          (bsearchGo key arr fuel ((lo + hi) / 2 + 1) hi).2 + 1) := by
  simp [bsearchGo, h]

lemma bsearchGo_none (key : List Nat) (arr : List (List Nat)) :
    ∀ fuel lo hi,
      (∀ j, lo ≤ j → j < hi → vocabCmp key (arr.getD j []) ≠ 0) →
      (bsearchGo key arr fuel lo hi).1 = none := by
  intro fuel
  induction fuel with
  | zero => intro lo hi _; rfl
  | succ fuel ih =>
    intro lo hi habs
    by_cases hlt : lo < hi
    · have hmid1 : lo ≤ (lo + hi) / 2 := by omega
      have hmid2 : (lo + hi) / 2 < hi := by omega
      have hc := habs ((lo + hi) / 2) hmid1 hmid2
      rw [bsearchGo_succ key arr fuel lo hi hlt, if_neg hc]
      by_cases hneg : vocabCmp key (arr.getD ((lo + hi) / 2) []) < 0
      · rw [if_pos hneg]
        exact ih lo ((lo + hi) / 2) (fun j hj1 hj2 => habs j hj1 (by omega))
      · rw [if_neg hneg]
        exact ih ((lo + hi) / 2 + 1) hi (fun j hj1 hj2 => habs j (by omega) hj2)
    · rw [bsearchGo_empty key arr (fuel + 1) lo hi hlt]

lemma bsearchGo_count (key : List Nat) (arr : List (List Nat)) :
    ∀ k fuel lo hi, hi - lo ≤ 2 ^ k → (bsearchGo key arr fuel lo hi).2 ≤ k + 1 := by
  intro k
  induction k with
  | zero =>
    intro fuel lo hi hk
    cases fuel with
    | zero => simp [bsearchGo]
    | succ fuel =>
      by_cases hlt : lo < hi
      · have hmid : (lo + hi) / 2 = lo := by omega
        rw [bsearchGo_succ key arr fuel lo hi hlt, hmid]
        by_cases hc : vocabCmp key (arr.getD lo []) = 0
        · rw [if_pos hc]
        · rw [if_neg hc]
          by_cases hneg : vocabCmp key (arr.getD lo []) < 0
          · rw [if_pos hneg, bsearchGo_empty key arr fuel lo lo (by omega)]
          · rw [if_neg hneg, bsearchGo_empty key arr fuel (lo + 1) hi (by omega)]
      · rw [bsearchGo_empty key arr (fuel + 1) lo hi hlt]
        omega
  | succ k ih =>
    intro fuel lo hi hk
    cases fuel with
    | zero => simp [bsearchGo]
    | succ fuel =>
      by_cases hlt : lo < hi
      · have hp : (2 : Nat) ^ (k + 1) = 2 * 2 ^ k := by rw [pow_succ]; ring
        rw [hp] at hk
        rw [bsearchGo_succ key arr fuel lo hi hlt]
        by_cases hc : vocabCmp key (arr.getD ((lo + hi) / 2) []) = 0
        · rw [if_pos hc]
          omega
        · rw [if_neg hc]
          by_cases hneg : vocabCmp key (arr.getD ((lo + hi) / 2) []) < 0
          · rw [if_pos hneg]
            have h2 := ih fuel lo ((lo + hi) / 2) (by omega)
            omega
          · rw [if_neg hneg]
            have h2 := ih fuel ((lo + hi) / 2 + 1) hi (by omega)
            omega
      · rw [bsearchGo_empty key arr (fuel + 1) lo hi hlt]
        omega

lemma bsearchGo_found (key : List Nat) (arr : List (List Nat)) (i0 : Nat)
    (hsort : ∀ i j, i < j → j < arr.length →
      vocabCmp (arr.getD i []) (arr.getD j []) < 0)
    (hi0 : i0 < arr.length)
    (heq : vocabCmp key (arr.getD i0 []) = 0) :
    ∀ fuel lo hi, hi - lo ≤ fuel → lo ≤ i0 → i0 < hi → hi ≤ arr.length →
      (bsearchGo key arr fuel lo hi).1 = some (arr.getD i0 []) := by
  have hword : wordOf key = wordOf (arr.getD i0 []) := (vocabCmp_zero_iff _ _).mp heq
  have hkey : ∀ m, vocabCmp key (arr.getD m []) =
      vocabCmp (arr.getD i0 []) (arr.getD m []) := by
    intro m
    rw [vocabCmp_proj, hword, ← vocabCmp_proj]
  intro fuel
  induction fuel with
  | zero => intro lo hi h1 h2 h3 _; omega
  | succ fuel ih =>
    intro lo hi hfuel hlo hhi hlen
    have hlt : lo < hi := by omega
    have hmlo : lo ≤ (lo + hi) / 2 := by omega
    have hmhi : (lo + hi) / 2 < hi := by omega
    rw [bsearchGo_succ key arr fuel lo hi hlt]
    by_cases hc : vocabCmp key (arr.getD ((lo + hi) / 2) []) = 0
    · have hwmid : wordOf (arr.getD ((lo + hi) / 2) []) = wordOf (arr.getD i0 []) := by
        rw [← (vocabCmp_zero_iff key _).mp hc, hword]
      have hmi : (lo + hi) / 2 = i0 := by
        by_contra hne
        rcases Nat.lt_or_ge ((lo + hi) / 2) i0 with hlt2 | hge
        · have hs := hsort ((lo + hi) / 2) i0 hlt2 hi0
          rw [(vocabCmp_zero_iff _ _).mpr hwmid] at hs
          omega
        · have hlt3 : i0 < (lo + hi) / 2 := by omega
          have hs := hsort i0 ((lo + hi) / 2) hlt3 (by omega)
          rw [(vocabCmp_zero_iff _ _).mpr hwmid.symm] at hs
          omega
      rw [if_pos hc, hmi]
    · rw [if_neg hc]
      by_cases hneg : vocabCmp key (arr.getD ((lo + hi) / 2) []) < 0
      · have hi0mid : i0 < (lo + hi) / 2 := by
          by_contra hge
          have hge2 : (lo + hi) / 2 ≤ i0 := by omega
          rcases Nat.eq_or_lt_of_le hge2 with heq2 | hlt2
          · rw [heq2] at hc
            exact hc heq
          · have hs := hsort ((lo + hi) / 2) i0 hlt2 hi0
            have hswap := vocabCmp_swap (arr.getD ((lo + hi) / 2) []) (arr.getD i0 [])
            have hk2 := hkey ((lo + hi) / 2)
            omega
        rw [if_pos hneg]
        exact ih lo ((lo + hi) / 2) (by omega) hlo hi0mid (by omega)
      · have hmid0 : (lo + hi) / 2 < i0 := by
          by_contra hge
          have hge2 : i0 ≤ (lo + hi) / 2 := by omega
          rcases Nat.eq_or_lt_of_le hge2 with heq2 | hlt2
          · rw [← heq2] at hc
            exact hc heq
          · have hs := hsort i0 ((lo + hi) / 2) hlt2 (by omega)
            have hk2 := hkey ((lo + hi) / 2)
            omega
        rw [if_neg hneg]
        exact ih ((lo + hi) / 2 + 1) hi (by omega) (by omega) hhi hlen

/-! ### Lemmas about the rank lookup -/

lemma takeWhile_append_stop (p : Nat → Bool) (w : List Nat) (x : Nat) (rest : List Nat)
    (hw : ∀ b ∈ w, p b = true) (hx : p x = false) :
    (w ++ x :: rest).takeWhile p = w := by
  induction w with
  | nil => simp [List.takeWhile_cons, hx]
  | cons b t ih =>
    have hb : p b = true := hw b (by simp)
    simp [List.takeWhile_cons, hb, ih (fun c hc => hw c (by simp [hc]))]

lemma dropWhile_append_stop (p : Nat → Bool) (w : List Nat) (x : Nat) (rest : List Nat)
    (hw : ∀ b ∈ w, p b = true) (hx : p x = false) :
    (w ++ x :: rest).dropWhile p = x :: rest := by
  induction w with
  | nil => simp [List.dropWhile_cons, hx]
  | cons b t ih =>
    have hb : p b = true := hw b (by simp)
    simp [List.dropWhile_cons, hb, ih (fun c hc => hw c (by simp [hc]))]

lemma wordOf_line (w : List Nat) (rest : List Nat) (hw : ∀ b ∈ w, 32 < b) :
    wordOf (w ++ 9 :: rest) = w := by
  unfold wordOf
  exact takeWhile_append_stop _ w 9 rest (fun b hb => by simp [hw b hb]) (by simp)

lemma wordOf_all (w : List Nat) (hw : ∀ b ∈ w, 32 < b) : wordOf w = w := by
  induction w with
  | nil => rfl
  | cons b t ih =>
    rw [wordOf_cons, if_pos (hw b (by simp)), ih (fun c hc => hw c (by simp [hc]))]

/-- A well-formed base vocabulary line: the word, then tab-separated decimal
fields occFreq, DF and rank, then a line terminator (possibly empty). -/
def vocabLine (w : List Nat) (occ df rank : Nat) (term : List Nat) : List Nat :=
  w ++ 9 :: (decBytes occ ++ 9 :: (decBytes df ++ 9 :: (decBytes rank ++ term)))

lemma fieldLoop_succ (fuel : Nat) (p : List Nat) (r : Int) :
    fieldLoop (fuel + 1) p r =
      if headByte (strtodC p).2 = 9 then
        fieldLoop fuel (strtodC p).2.tail ((strtodC p).1 : Int)
      else if headByte (strtodC p).2 < 32 ∧ fuel ≠ 0 then 1818
      else if headByte (strtodC p).2 ≠ 0 ∧ headByte (strtodC p).2 ≠ 13 ∧
          headByte (strtodC p).2 ≠ 10 then 2929
      else fieldLoop fuel p ((strtodC p).1 : Int) := rfl

lemma fieldLoop_parse (occ df rank : Nat) (term : List Nat)
    (hterm : headByte term = 0 ∨ headByte term = 10 ∨ headByte term = 13) :
    fieldLoop 3 (decBytes occ ++ 9 :: (decBytes df ++ 9 :: (decBytes rank ++ term))) 0 =
      (rank : Int) := by
  have htd : isDigit (headByte term) = false := by
    rcases hterm with h | h | h <;> rw [h] <;> rfl
  have h1 := strtodC_decBytes occ (9 :: (decBytes df ++ 9 :: (decBytes rank ++ term)))
    (by rfl)
  have h2 := strtodC_decBytes df (9 :: (decBytes rank ++ term)) (by rfl)
  have h3 := strtodC_decBytes rank term htd
  rw [show (3 : Nat) = 2 + 1 from rfl, fieldLoop_succ, h1]
  simp only [headByte, List.tail_cons, if_true]
  rw [show (2 : Nat) = 1 + 1 from rfl, fieldLoop_succ, h2]
  simp only [headByte, List.tail_cons, if_true]
  rw [show (1 : Nat) = 0 + 1 from rfl, fieldLoop_succ, h3]
  rcases hterm with h | h | h <;> rw [h] <;> norm_num <;> rfl

lemma getRank_line (base : List (List Nat)) (w : List Nat) (i0 : Nat)
    (occ df rank : Nat) (term : List Nat)
    (hsort : base.Pairwise (fun a b => vocabCmp a b < 0))
    (hi0 : i0 < base.length)
    (hline : base.getD i0 [] = vocabLine w occ df rank term)
    (hw : ∀ b ∈ w, 32 < b)
    (hterm : headByte term = 0 ∨ headByte term = 10 ∨ headByte term = 13) :
    getRankInBase base w = (rank : Int) := by
  have hsort2 : ∀ i j, i < j → j < base.length →
      vocabCmp (base.getD i []) (base.getD j []) < 0 := by
    intro i j hij hj
    have hi : i < base.length := by omega
    rw [List.getD_eq_getElem _ _ hi, List.getD_eq_getElem _ _ hj]
    exact List.pairwise_iff_getElem.mp hsort i j hi hj hij
  have hcmp : vocabCmp w (base.getD i0 []) = 0 := by
    rw [hline]
    apply (vocabCmp_zero_iff _ _).mpr
    rw [vocabLine, wordOf_line w _ hw, wordOf_all w hw]
  have hfound := bsearchGo_found w base i0 hsort2 hi0 hcmp base.length 0 base.length
    (by omega) (by omega) hi0 le_rfl
  have hfound2 : (cBsearch w base).1 = some (base.getD i0 []) := hfound
  unfold getRankInBase
  rw [hfound2]
  show fieldLoop 3 ((base.getD i0 []).dropWhile (fun b => decide (32 < b))).tail 0 =
    (rank : Int)
  rw [hline, vocabLine]
  rw [dropWhile_append_stop _ w 9 _ (fun b hb => by simp [hw b hb]) (by simp)]
  simp only [List.tail_cons]
  exact fieldLoop_parse occ df rank term hterm

/-- Claim C7: over a lexicographically sorted base vocabulary, a lookup for
a probe word that matches no entry under the comparison rule (which
includes every proper-prefix or proper-extension probe, by claim C4)
returns the not-found value -1, and any lookup performs at most
ceil(log2 N) + 1 word comparisons. -/
theorem claim_C7 (base : List (List Nat)) (w : List Nat)
    (_hsort : base.Pairwise (fun a b => vocabCmp a b < 0))
    (habs : ∀ line ∈ base, vocabCmp w line ≠ 0) :
    getRankInBase base w = -1 ∧
    lookupComparisons base w ≤ Nat.clog 2 base.length + 1 := by
  constructor
  · have hnone : (cBsearch w base).1 = none := by
      apply bsearchGo_none
      intro j hj1 hj2
      rw [List.getD_eq_getElem _ _ hj2]
      exact habs _ (List.getElem_mem _)
    unfold getRankInBase
    rw [hnone]
  · unfold lookupComparisons cBsearch
    apply bsearchGo_count
    calc base.length - 0 ≤ base.length := by omega
      _ ≤ 2 ^ Nat.clog 2 base.length := Nat.le_pow_clog (by norm_num) _

/-- Witness for claim C7: probing a two-entry sorted vocabulary for the
absent word "c". -/
theorem claim_C7_witness :
    getRankInBase [[97, 9, 49, 9, 49, 9, 49], [98, 9, 49, 9, 49, 9, 50]] [99] = -1 ∧
    lookupComparisons [[97, 9, 49, 9, 49, 9, 49], [98, 9, 49, 9, 49, 9, 50]] [99] ≤
      Nat.clog 2 2 + 1 :=
  claim_C7 [[97, 9, 49, 9, 49, 9, 49], [98, 9, 49, 9, 49, 9, 50]] [99]
    (by decide) (by decide)

/-- Claim C1: for a query word present in the sorted base vocabulary on a
well-formed line recording 1-origin rank r, with obfuscation off and r at
most the line count of the emulated vocabulary, the emitted word is exactly the
word stored at index r - 1 of the emulated vocabulary list, and the run
state is untouched. -/
theorem claim_C1 (P : Params) (G : Globals) (rng : Nat → ℚ) (st : RunState)
    (w : List Nat) (i0 occ df r : Nat) (term : List Nat)
    (hob : P.obfuscate = false)
    (hsort : G.baseVocabLines.Pairwise (fun a b => vocabCmp a b < 0))
    (hi0 : i0 < G.baseVocabLines.length)
    (hline : G.baseVocabLines.getD i0 [] = vocabLine w occ df r term)
    (hw : ∀ b ∈ w, 32 < b)
    (hterm : headByte term = 0 ∨ headByte term = 10 ∨ headByte term = 13)
    (hr1 : 1 ≤ r) (hrle : r ≤ G.emuVocabLines.length) :
    emitWord P G rng w st = (wordAt G (r - 1), st) := by
  have hrank := getRank_line G.baseVocabLines w i0 occ df r term hsort hi0 hline hw hterm
  have hr1i : (1 : Int) ≤ (r : Int) := by exact_mod_cast hr1
  have hrlei : (r : Int) ≤ (G.emuVocabLines.length : Int) := by exact_mod_cast hrle
  simp only [emitWord, hrank, hob, jitterRank_not_obf]
  rw [if_neg (by omega : ¬ ((r : Int) - 1 < 0))]
  rw [if_neg (by omega : ¬ ((G.emuVocabLines.length : Int) ≤ (r : Int) - 1))]
  have htn : ((r : Int) - 1).toNat = r - 1 := by omega
  rw [htn, wordAt]

/-- Witness for claim C1: querying "banana" (rank 1) against a two-line
sorted base vocabulary and a two-line emulated vocabulary yields the
emulated word at index 0. -/
theorem claim_C1_witness :
    emitWord ⟨false, false⟩
      ⟨[[97, 112, 112, 108, 101, 9, 49, 48, 9, 53, 9, 50],
        [98, 97, 110, 97, 110, 97, 9, 50, 48, 9, 56, 9, 49]],
       [[122, 101, 116, 97], [121, 97, 107]]⟩
      (fun _ => 0) [98, 97, 110, 97, 110, 97] ⟨0, 0⟩ =
      (wordAt ⟨[[97, 112, 112, 108, 101, 9, 49, 48, 9, 53, 9, 50],
        [98, 97, 110, 97, 110, 97, 9, 50, 48, 9, 56, 9, 49]],
       [[122, 101, 116, 97], [121, 97, 107]]⟩ (1 - 1), ⟨0, 0⟩) :=
  claim_C1 ⟨false, false⟩
    ⟨[[97, 112, 112, 108, 101, 9, 49, 48, 9, 53, 9, 50],
      [98, 97, 110, 97, 110, 97, 9, 50, 48, 9, 56, 9, 49]],
     [[122, 101, 116, 97], [121, 97, 107]]⟩
    (fun _ => 0) ⟨0, 0⟩ [98, 97, 110, 97, 110, 97] 1 20 8 1 []
    rfl (by decide) (by decide) (by decide) (by decide) (Or.inl rfl)
    (by decide) (by decide)

/-! ### Lemmas for the random-substitution branches -/

lemma randIndex_bounds (r : ℚ) (n : Nat) (h0 : 0 ≤ r) (h1 : r < 1) (hn : 1 ≤ n) :
    0 ≤ randIndex r n ∧ randIndex r n < (n : Int) := by
  constructor
  · apply Int.floor_nonneg.mpr
    positivity
  · apply Int.floor_lt.mpr
    push_cast
    have hn0 : (0 : ℚ) < (n : ℚ) := by exact_mod_cast hn
    calc r * (n : ℚ) < 1 * (n : ℚ) := by exact mul_lt_mul_of_pos_right h1 hn0
      _ = (n : ℚ) := one_mul _

/-- Counterexample to claim C5: with obfuscation on, the overflow word is
not always selected by a fresh uniform draw.  Probe "a" has base rank 3,
above the emulated line count 2; the constant-zero draw stream makes the
jitter step decrement rank0 from 2 to 1, which is back inside the
emulated range, so the code emits the word at index 1 ("yak")
positionally, consuming only the single jitter draw (final draw position
1) - while the fresh-draw selection floor(draw * count) the claim
asserts would pick index 0 ("zeta"), a different word. -/
theorem claim_C5_counterexample :
    getRankInBase [[97, 9, 49, 9, 49, 9, 51]] [97] = 3 ∧
    (2 : Int) < 3 ∧
    emitWord ⟨true, false⟩
      ⟨[[97, 9, 49, 9, 49, 9, 51]], [[122, 101, 116, 97], [121, 97, 107]]⟩
      (fun _ => 0) [97] ⟨0, 0⟩ = ([121, 97, 107], ⟨0, 1⟩) ∧
    wordAt ⟨[[97, 9, 49, 9, 49, 9, 51]], [[122, 101, 116, 97], [121, 97, 107]]⟩
      (randIndex ((fun _ => (0 : ℚ)) 1) 2).toNat = [122, 101, 116, 97] ∧
    ([121, 97, 107] : List Nat) ≠ [122, 101, 116, 97] := by
  have hrank : getRankInBase [[97, 9, 49, 9, 49, 9, 51]] [97] = 3 := by decide
  have hj : jitterRank true (3 - 1) (fun _ => (0 : ℚ)) 0 = (1, 1) := by
    norm_num [jitterRank]
  refine ⟨hrank, by norm_num, ?_, ?_, by decide⟩
  · simp only [emitWord, hrank, hj]
    norm_num
    decide
  · have hidx : randIndex ((0 : ℚ)) 2 = 0 := by simp [randIndex]
    simp only [hidx]
    decide

/-- Claim C5 (amended): when the looked-up 1-origin rank exceeds the
line count of the emulated vocabulary, the emitted word is always an
element of the emulated vocabulary list and the placeholder counter never
advances, whatever the two configuration flags are; when obfuscation is
off, the element is selected by one fresh uniform draw as
floor(r * count).  (Under obfuscation the jitter step can pull a boundary
rank back into range, in which case selection is positional.) -/
theorem claim_C5 (P : Params) (G : Globals) (rng : Nat → ℚ) (st : RunState)
    (w : List Nat) (r : Nat)
    (hrank : getRankInBase G.baseVocabLines w = (r : Int))
    (hr1 : 1 ≤ r)
    (hover : G.emuVocabLines.length < r)
    (hcount : 1 ≤ G.emuVocabLines.length)
    (hrng : ∀ k, 0 ≤ rng k ∧ rng k < 1) :
    (∃ i, i < G.emuVocabLines.length ∧ (emitWord P G rng w st).1 = wordAt G i) ∧
    (emitWord P G rng w st).2.noexistNum = st.noexistNum ∧
    (P.obfuscate = false →
      emitWord P G rng w st =
        (wordAt G (randIndex (rng st.rix) G.emuVocabLines.length).toNat,
          ⟨st.noexistNum, st.rix + 1⟩)) := by
  have hr1i : (1 : Int) ≤ (r : Int) := by exact_mod_cast hr1
  have hoveri : (G.emuVocabLines.length : Int) < (r : Int) := by exact_mod_cast hover
  have hcj := jitterRank_bounds P.obfuscate ((r : Int) - 1) rng st.rix (by omega)
  obtain ⟨hj0, hjlo, hjhi⟩ := hcj
  refine ⟨?_, ?_, ?_⟩
  · simp only [emitWord, hrank]
    rw [if_neg (by omega)]
    by_cases hcase : (G.emuVocabLines.length : Int) ≤
        (jitterRank P.obfuscate ((r : Int) - 1) rng st.rix).1
    · rw [if_pos hcase]
      have hb := randIndex_bounds
        (rng (jitterRank P.obfuscate ((r : Int) - 1) rng st.rix).2)
        G.emuVocabLines.length
        (hrng _).1 (hrng _).2 hcount
      refine ⟨(randIndex (rng (jitterRank P.obfuscate ((r : Int) - 1) rng st.rix).2)
        G.emuVocabLines.length).toNat, by omega, rfl⟩
    · rw [if_neg hcase]
      refine ⟨(jitterRank P.obfuscate ((r : Int) - 1) rng st.rix).1.toNat,
        by omega, rfl⟩
  · simp only [emitWord, hrank]
    rw [if_neg (by omega)]
    by_cases hcase : (G.emuVocabLines.length : Int) ≤
        (jitterRank P.obfuscate ((r : Int) - 1) rng st.rix).1
    · rw [if_pos hcase]
    · rw [if_neg hcase]
  · intro hob
    simp only [emitWord, hrank, hob, jitterRank_not_obf]
    rw [if_neg (by omega : ¬ ((r : Int) - 1 < 0))]
    rw [if_pos (by omega : (G.emuVocabLines.length : Int) ≤ (r : Int) - 1)]
    rfl

/-- Witness for claim C5: rank 5 against a two-line emulated vocabulary,
with a constant-zero draw stream, picks emulated index 0. -/
theorem claim_C5_witness :
    (∃ i, i < 2 ∧
      (emitWord ⟨false, true⟩ ⟨[[97, 9, 49, 9, 49, 9, 53]],
        [[122, 101, 116, 97], [121, 97, 107]]⟩ (fun _ => 0) [97] ⟨0, 0⟩).1 =
        wordAt ⟨[[97, 9, 49, 9, 49, 9, 53]], [[122, 101, 116, 97], [121, 97, 107]]⟩ i) ∧
    (emitWord ⟨false, true⟩ ⟨[[97, 9, 49, 9, 49, 9, 53]],
      [[122, 101, 116, 97], [121, 97, 107]]⟩ (fun _ => 0) [97] ⟨0, 0⟩).2.noexistNum = 0 ∧
    ((⟨false, true⟩ : Params).obfuscate = false →
      emitWord ⟨false, true⟩ ⟨[[97, 9, 49, 9, 49, 9, 53]],
        [[122, 101, 116, 97], [121, 97, 107]]⟩ (fun _ => 0) [97] ⟨0, 0⟩ =
        (wordAt ⟨[[97, 9, 49, 9, 49, 9, 53]], [[122, 101, 116, 97], [121, 97, 107]]⟩
          (randIndex ((fun _ => (0 : ℚ)) 0) 2).toNat, ⟨0, 0 + 1⟩)) :=
  claim_C5 ⟨false, true⟩ ⟨[[97, 9, 49, 9, 49, 9, 53]],
      [[122, 101, 116, 97], [121, 97, 107]]⟩ (fun _ => 0) ⟨0, 0⟩ [97] 5
    (by decide) (by decide) (by decide) (by decide)
    (fun k => ⟨le_rfl, by norm_num⟩)

/-! ### Lemmas for the placeholder counter -/

lemma emitWord_oov (P : Params) (G : Globals) (rng : Nat → ℚ) (w : List Nat)
    (st : RunState) (hpres : P.preserveNoExists = true)
    (hoov : getRankInBase G.baseVocabLines w = -1) :
    emitWord P G rng w st = (noexistToken st.noexistNum, ⟨st.noexistNum + 1, st.rix⟩) ∧
    wordRank1 P G rng w st < 0 := by
  have hneg : getRankInBase G.baseVocabLines w - 1 < 0 := by rw [hoov]; norm_num
  have hj := jitterRank_neg P.obfuscate hneg rng st.rix
  constructor
  · simp only [emitWord, hj]
    rw [if_pos hneg]
    simp [hpres]
  · simp only [wordRank1, hj]
    exact hneg

lemma emitWord_found_state (P : Params) (G : Globals) (rng : Nat → ℚ) (w : List Nat)
    (st : RunState) (hfound : 1 ≤ getRankInBase G.baseVocabLines w) :
    (emitWord P G rng w st).2.noexistNum = st.noexistNum ∧
    ¬ wordRank1 P G rng w st < 0 := by
  have h0 : 0 ≤ getRankInBase G.baseVocabLines w - 1 := by omega
  have hb := jitterRank_bounds P.obfuscate (getRankInBase G.baseVocabLines w - 1)
    rng st.rix h0
  have hnot : ¬ (jitterRank P.obfuscate (getRankInBase G.baseVocabLines w - 1)
      rng st.rix).1 < 0 := by omega
  constructor
  · simp only [emitWord]
    rw [if_neg hnot]
    by_cases hcase : (G.emuVocabLines.length : Int) ≤
        (jitterRank P.obfuscate (getRankInBase G.baseVocabLines w - 1) rng st.rix).1
    · rw [if_pos hcase]
    · rw [if_neg hcase]
  · simpa [wordRank1] using hnot

lemma placeholders_line (P : Params) (G : Globals) (rng : Nat → ℚ)
    (hpres : P.preserveNoExists = true) :
    ∀ (ws : List (List Nat)) (st : RunState),
      (∀ w ∈ ws, getRankInBase G.baseVocabLines w = -1 ∨
        1 ≤ getRankInBase G.baseVocabLines w) →
      placeholdersEmitted P G rng ws st =
        (List.range (ws.countP
          (fun w => decide (getRankInBase G.baseVocabLines w = -1)))).map
          (fun i => noexistToken (st.noexistNum + i)) ∧
      (emitWords P G rng ws st).2.noexistNum =
        st.noexistNum + ws.countP
          (fun w => decide (getRankInBase G.baseVocabLines w = -1)) := by
  intro ws
  induction ws with
  | nil => intro st _; simp [placeholdersEmitted, emitWords]
  | cons w ws ih =>
    intro st h
    rcases h w (by simp) with hoov | hfound
    · have he := emitWord_oov P G rng w st hpres hoov
      have hrec := ih ⟨st.noexistNum + 1, st.rix⟩ (fun x hx => h x (by simp [hx]))
      have hcount : (w :: ws).countP
          (fun w => decide (getRankInBase G.baseVocabLines w = -1)) =
          ws.countP (fun w => decide (getRankInBase G.baseVocabLines w = -1)) + 1 := by
        rw [List.countP_cons]
        simp [hoov]
      constructor
      · simp only [placeholdersEmitted, he.1]
        rw [if_pos ⟨hpres, he.2⟩, hrec.1, hcount, List.range_succ_eq_map]
        simp only [List.map_cons, List.map_map, Nat.add_zero]
        congr 1
        apply List.map_congr_left
        intro a _
        simp only [Function.comp_apply]
        congr 1
        omega
      · simp only [emitWords, he.1, hrec.2, hcount]
        omega
    · have he := emitWord_found_state P G rng w st hfound
      have hrec := ih (emitWord P G rng w st).2
        (fun x hx => h x (by simp [hx]))
      have hcount : (w :: ws).countP
          (fun w => decide (getRankInBase G.baseVocabLines w = -1)) =
          ws.countP (fun w => decide (getRankInBase G.baseVocabLines w = -1)) := by
        rw [List.countP_cons]
        have : ¬ getRankInBase G.baseVocabLines w = -1 := by omega
        simp [this]
      constructor
      · simp only [placeholdersEmitted]
        rw [if_neg (fun hc => he.2 hc.2), hrec.1, hcount, he.1]
      · simp only [emitWords, hrec.2, hcount, he.1]

lemma placeholders_run (P : Params) (G : Globals) (rng : Nat → ℚ)
    (hpres : P.preserveNoExists = true) :
    ∀ (qs : List (List (List Nat))) (st : RunState),
      (∀ q ∈ qs, ∀ w ∈ q, getRankInBase G.baseVocabLines w = -1 ∨
        1 ≤ getRankInBase G.baseVocabLines w) →
      placeholdersInRun P G rng qs st =
        (List.range (oovCount G qs)).map (fun i => noexistToken (st.noexistNum + i)) ∧
      (runQueries P G rng qs st).2.noexistNum = st.noexistNum + oovCount G qs := by
  intro qs
  induction qs with
  | nil => intro st _; simp [placeholdersInRun, runQueries, oovCount]
  | cons q qs ih =>
    intro st h
    have hline := placeholders_line P G rng hpres q st (h q (by simp))
    have hst2 : (transformLine P G rng q st).2 = (emitWords P G rng q st).2 := rfl
    have hnext := ih (transformLine P G rng q st).2
      (fun q2 hq2 => h q2 (by simp [hq2]))
    have hcnt : oovCount G (q :: qs) =
        q.countP (fun w => decide (getRankInBase G.baseVocabLines w = -1)) +
          oovCount G qs := by
      simp [oovCount]
    rw [hst2] at hnext
    obtain ⟨hn1, hn2⟩ := hnext
    constructor
    · simp only [placeholdersInRun, hline.1, hst2, hn1, hline.2, hcnt,
        List.range_add, List.map_append, List.map_map]
      congr 1
      apply List.map_congr_left
      intro a _
      simp only [Function.comp_apply]
      congr 1
      omega
    · simp only [runQueries]
      rw [hst2, hn2, hline.2, hcnt]
      omega

/-- Claim C6: in a run with preserveNoExists on, provided every query word
is either absent from the base vocabulary or recorded there with a
positive rank, the placeholder outputs across the whole run are exactly
noexist0, noexist1, ... in emission order regardless of line boundaries,
they are pairwise distinct, and the run-wide counter, starting at 0,
finishes equal to the number of out-of-vocabulary occurrences. -/
theorem claim_C6 (P : Params) (G : Globals) (rng : Nat → ℚ)
    (qs : List (List (List Nat)))
    (hpres : P.preserveNoExists = true)
    (hranks : ∀ q ∈ qs, ∀ w ∈ q, getRankInBase G.baseVocabLines w = -1 ∨
      1 ≤ getRankInBase G.baseVocabLines w) :
    placeholdersInRun P G rng qs ⟨0, 0⟩ =
      (List.range (oovCount G qs)).map noexistToken ∧
    (placeholdersInRun P G rng qs ⟨0, 0⟩).Nodup ∧
    (runQueries P G rng qs ⟨0, 0⟩).2.noexistNum = oovCount G qs := by
  have h := placeholders_run P G rng hpres qs ⟨0, 0⟩ hranks
  have hmap : placeholdersInRun P G rng qs ⟨0, 0⟩ =
      (List.range (oovCount G qs)).map noexistToken := by
    rw [h.1]
    apply List.map_congr_left
    intro a _
    simp
  refine ⟨hmap, ?_, by simpa using h.2⟩
  rw [hmap]
  exact List.Nodup.map (fun a b hab => noexistToken_inj hab) (List.nodup_range _)

/-- Witness for claim C6: one query line containing the single word "k",
with an empty base vocabulary, emits exactly the placeholder noexist0. -/
theorem claim_C6_witness :
    placeholdersInRun ⟨false, true⟩ ⟨[], [[122]]⟩ (fun _ => 0) [[[107]]] ⟨0, 0⟩ =
      (List.range (oovCount ⟨[], [[122]]⟩ [[[107]]])).map noexistToken ∧
    (placeholdersInRun ⟨false, true⟩ ⟨[], [[122]]⟩ (fun _ => 0) [[[107]]] ⟨0, 0⟩).Nodup ∧
    (runQueries ⟨false, true⟩ ⟨[], [[122]]⟩ (fun _ => 0) [[[107]]] ⟨0, 0⟩).2.noexistNum =
      oovCount ⟨[], [[122]]⟩ [[[107]]] :=
  claim_C6 ⟨false, true⟩ ⟨[], [[122]]⟩ (fun _ => 0) [[[107]]] rfl
    (by intro q hq w hw; left; simp at hq; subst hq; simp at hw; subst hw; decide)

/-! ### Lemmas for output line assembly -/

lemma intercalate_cons_cons (s x y : List Nat) (zs : List (List Nat)) :
    List.intercalate s (x :: y :: zs) = x ++ s ++ List.intercalate s (y :: zs) := by
  simp [List.intercalate, List.intersperse_cons_cons]

lemma assembleWords_intercalate :
    ∀ os : List (List Nat), assembleWords true os = List.intercalate [32] os := by
  intro os
  induction os with
  | nil => simp [assembleWords, List.intercalate]
  | cons o os ih =>
    cases os with
    | nil => simp [assembleWords, List.intercalate]
    | cons o2 os2 =>
      rw [intercalate_cons_cons, ← ih]
      simp [assembleWords]

/-- Claim C8: every output line is the per-word substitution outcomes in
original order, joined by exactly one space and closed by exactly one
newline; in particular, on the base vocabulary lines apple/10/5/rank 2 and
banana/20/8/rank 1 with emulated list [zeta, yak] and obfuscation off, the
query line with words "banana apple" produces the bytes of
"zeta yak" plus a newline, with the run state untouched. -/
theorem claim_C8 :
    (∀ (P : Params) (G : Globals) (rng : Nat → ℚ) (ws : List (List Nat))
      (st : RunState),
      (transformLine P G rng ws st).1 =
        List.intercalate [32] (emitWords P G rng ws st).1 ++ [10]) ∧
    transformLine ⟨false, false⟩
      ⟨[[97, 112, 112, 108, 101, 9, 49, 48, 9, 53, 9, 50],
        [98, 97, 110, 97, 110, 97, 9, 50, 48, 9, 56, 9, 49]],
       [[122, 101, 116, 97], [121, 97, 107]]⟩
      (fun _ => 0) [[98, 97, 110, 97, 110, 97], [97, 112, 112, 108, 101]] ⟨0, 0⟩ =
      ([122, 101, 116, 97, 32, 121, 97, 107, 10], ⟨0, 0⟩) := by
  constructor
  · intro P G rng ws st
    show assembleWords true (emitWords P G rng ws st).1 ++ [10] = _
    rw [assembleWords_intercalate]
  · decide

/-! ### Lemmas for the trailing-terminator stripping loop -/

lemma stripLoop_succ (buf : List Nat) (n : Nat) :
    stripLoop buf (n + 1) =
      if buf.getD n 0 < 32 then stripLoop buf n else some (n + 1) := rfl

lemma stripLoop_some (buf : List Nat) :
    ∀ n, (∃ i, i < n ∧ 32 ≤ buf.getD i 0) →
      ∃ m, stripLoop buf n = some m ∧ 1 ≤ m ∧ m ≤ n := by
  intro n
  induction n with
  | zero => rintro ⟨i, hi, _⟩; omega
  | succ n ih =>
    rintro ⟨i, hi, hb⟩
    by_cases hlast : buf.getD n 0 < 32
    · have hin : i < n := by
        rcases Nat.lt_or_ge i n with hx | hx
        · exact hx
        · have hieq : i = n := by omega
          rw [hieq] at hb
          omega
      obtain ⟨m, hm1, hm2, hm3⟩ := ih ⟨i, hin, hb⟩
      refine ⟨m, ?_, hm2, by omega⟩
      rw [stripLoop_succ, if_pos hlast, hm1]
    · exact ⟨n + 1, by rw [stripLoop_succ, if_neg hlast], by omega, le_rfl⟩

/-- Counterexample to the description of the loop in claim C9: the loop
condition in the code is strictly-below-space, not at-or-below-space.  On the buffer
"a " (a letter followed by a space) the loop in the code keeps the length at 2,
while a loop that strips bytes at or below space would shorten it to 1. -/
theorem claim_C9_counterexample :
    stripLoop [97, 32] 2 = some 2 ∧ stripLoopSpec [97, 32] 2 = some 1 ∧
    (32 : Nat) ≤ 32 ∧ ¬ (32 : Nat) < 32 := by decide

/-- Claim C9 (amended): for every line buffer holding at least one byte
strictly above space, the stripping loop — which decrements the length
while the byte before the current end is STRICTLY BELOW space — terminates
with every access in bounds (it never has to read the byte before index
0), ending at a length between 1 and the initial length. -/
theorem claim_C9_amended (buf : List Nat) (h : ∃ b ∈ buf, 32 < b) :
    ∃ m, stripLoop buf buf.length = some m ∧ 1 ≤ m ∧ m ≤ buf.length := by
  obtain ⟨b, hb, h32⟩ := h
  obtain ⟨i, hi, hgi⟩ := List.mem_iff_getElem.mp hb
  apply stripLoop_some
  refine ⟨i, hi, ?_⟩
  rw [List.getD_eq_getElem _ _ hi, hgi]
  omega

/-- Witness for amended claim C9 on the one-byte buffer "a". -/
theorem claim_C9_amended_witness :
    (∃ b ∈ [97], 32 < b) ∧
    ∃ m, stripLoop [97] 1 = some m ∧ 1 ≤ m ∧ m ≤ 1 :=
  ⟨⟨97, by decide, by decide⟩,
    claim_C9_amended [97] ⟨97, by decide, by decide⟩⟩
